import Mathlib

/-!
Doom 64 lump-name hash (`doom64-hash/c_src/doom64hash.c`).

A shallow embedding of the C function

    uint16_t hash(const char* str) {
        uint32_t hash_ = 1315423911;
        for (int i = 0; i < 8 && str[i]; ++i) {
            char c = str[i];
            hash_ ^= (hash_ << 5) + toupper(c) + (hash_ >> 2);
        }
        return (uint16_t)(hash_ & 0xffff);
    }

Memory is a list of bytes, `str[i]` is a checked read of that list, the
`uint32_t` accumulator is a natural number reduced modulo `2^32` wherever C
reduces it, and the two things C leaves to the implementation (whether plain
`char` is signed, and the `<ctype.h>` function `toupper`) are explicit.
-/

namespace Doom64Hash

/-- One byte of memory. -/
abbrev Byte := Fin 256

/-- Outcome of running C code: a value, a read outside the buffer (with the
offending index), or an exhausted step budget. -/
inductive Run (α : Type) where
  | ok (a : α)
  | outOfBounds (index : Nat)
  | outOfFuel
deriving DecidableEq

/-- The value of a plain `char` holding byte `b`, promoted to `int`: where
plain `char` is signed (two's complement, 8 bits) the bytes `128..255` are the
negative values `-128..-1`; where it is unsigned the value is the byte. -/
def charValue (charSigned : Bool) (b : Byte) : Int :=
  if charSigned = true ∧ 128 ≤ b.val then (b.val : Int) - 256 else (b.val : Int)

/-- Modelled from the spec: `toupper` of `<ctype.h>` is called by `hash` but is
not part of the repository. The spec fixes it as "the standard
ASCII/locale-independent uppercase mapping for letters (non-letter characters
pass through unchanged)": the letters `a..z` (97..122) go to `A..Z`, every
other `int` (in particular `EOF = -1`) is returned as it is. -/
def toupper (c : Int) : Int :=
  if 97 ≤ c ∧ c ≤ 122 then c - 32 else c

/-- Conversion of an `int` to `uint32_t`: reduction modulo `2^32`. -/
def toUInt32 (z : Int) : Nat := (z % 4294967296).toNat

/-- The right-hand side and assignment of
`hash_ ^= (hash_ << 5) + toupper(c) + (hash_ >> 2);` for an accumulator
`hash_` and the `int` value `t` returned by `toupper(c)`. The left shift and
both additions are `uint32_t` operations, so each is reduced modulo `2^32`;
`t` is converted to `uint32_t` before it is added. -/
def update (hash_ : Nat) (t : Int) : Nat :=
  hash_ ^^^ ((((hash_ <<< 5) % 4294967296 + toUInt32 t) % 4294967296
    + (hash_ >>> 2)) % 4294967296)

/-- The variables of the loop, with two ghost fields: the indices of `str`
that have been read so far (in order) and the number of executions of the
loop body. -/
structure LoopState where
  i : Nat
  hash_ : Nat
  reads : List Nat
  updates : Nat
deriving DecidableEq

/-- State before the loop: `hash_ = 1315423911`, `i = 0`. -/
def initState : LoopState :=
  { i := 0, hash_ := 1315423911, reads := [], updates := 0 }

/-- One execution of the loop body followed by `++i`, entered after the guard
read `str[i]` and found the non-zero byte `b`; the body reads `str[i]` again
(`char c = str[i];`). -/
def body (charSigned : Bool) (b : Byte) (st : LoopState) : LoopState :=
  { i := st.i + 1
    hash_ := update st.hash_ (toupper (charValue charSigned b))
    reads := st.reads ++ [st.i, st.i]
    updates := st.updates + 1 }

/-- The loop `for (...; i < 8 && str[i]; ++i) { ... }` over the buffer `str`,
with a step budget: each unit of `fuel` pays for one evaluation of the guard.
`i < 8` is tested first and `str[i]` is read only when it holds. -/
def hashLoop (charSigned : Bool) (str : List Byte) : Nat → LoopState → Run LoopState
  | 0, _ => Run.outOfFuel
  | fuel + 1, st =>
    if st.i < 8 then
      match str[st.i]? with
      | none => Run.outOfBounds st.i
      | some b =>
        if b ≠ 0 then hashLoop charSigned str fuel (body charSigned b st)
        else Run.ok { st with reads := st.reads ++ [st.i] }
    else Run.ok st

/-- The statement `return (uint16_t)(hash_ & 0xffff);`. -/
def result (hash_ : Nat) : Nat := (hash_ &&& 0xffff) % 65536

/-- Step budget used by `hashBuf`: the guard is evaluated at most nine times
(for `i = 0, ..., 8`). -/
def loopFuel : Nat := 9

/-- The function `hash` run on the raw buffer `buf` that `str` points to. -/
def hashBuf (charSigned : Bool) (buf : List Byte) : Run Nat :=
  match hashLoop charSigned buf loopFuel initState with
  | Run.ok st => Run.ok (result st.hash_)
  | Run.outOfBounds k => Run.outOfBounds k
  | Run.outOfFuel => Run.outOfFuel

/-- The function `hash` called on a C string: the bytes `s` followed in memory
by the terminating zero byte. -/
def hash (charSigned : Bool) (s : List Byte) : Run Nat :=
  hashBuf charSigned (s ++ [0])

/-- The loop seen from the unread part of the buffer: `k` is the number of
indices still below 8 and the list is the memory from index `st.i` on. It is
`hashLoop` with the index arithmetic removed (`hashLoop_eq_scan`), and is used
only to reason about `hashLoop`. -/
def scan (charSigned : Bool) : Nat → List Byte → LoopState → Run LoopState
  | 0, _, st => Run.ok st
  | _ + 1, [], st => Run.outOfBounds st.i
  | k + 1, b :: rest, st =>
    if b ≠ 0 then scan charSigned k rest (body charSigned b st)
    else Run.ok { st with reads := st.reads ++ [st.i] }

/-- The significant characters of an input: those at indices `0..7` that come
before the first zero byte or the end of the input. -/
def significant (s : List Byte) : List Byte :=
  (s.take 8).takeWhile (fun b => b ≠ 0)

/-- One accumulator update as the specification words it, for the uppercase
code `u` of a character: `acc XOR ((acc << 5 truncated to 32 bits) + u +
(acc >> 2))`, the additions modulo `2^32`. -/
def specStep (acc : Nat) (u : Int) : Nat :=
  Nat.xor acc ((((acc * 2 ^ 5) % 2 ^ 32 : Nat) + u + ((acc / 2 ^ 2 : Nat) : Int)) % 2 ^ 32).toNat

/-- The uppercase code of the character held in byte `b`, as `hash` obtains
it: `toupper` applied to the `char` value of the byte. -/
def upperCode (charSigned : Bool) (b : Byte) : Int :=
  toupper (charValue charSigned b)

/-- The accumulator after folding the updates of `hash` over a list of
characters. -/
def accOf (charSigned : Bool) (chars : List Byte) : Nat :=
  chars.foldl (fun h b => update h (upperCode charSigned b)) 1315423911

/-- ASCII uppercase of a byte: `a..z` become `A..Z`, every other byte is
unchanged. -/
def upperByte (b : Byte) : Byte :=
  if h : 97 ≤ b.val ∧ b.val ≤ 122 then ⟨b.val - 32, by omega⟩ else b

/-- ASCII lowercase of a byte: `A..Z` become `a..z`, every other byte is
unchanged. -/
def lowerByte (b : Byte) : Byte :=
  if h : 65 ≤ b.val ∧ b.val ≤ 90 then ⟨b.val + 32, by omega⟩ else b

/-- Uppercase of a byte string (ASCII letters only). -/
def uppercase (s : List Byte) : List Byte := s.map upperByte

/-- Lowercase of a byte string (ASCII letters only). -/
def lowercase (s : List Byte) : List Byte := s.map lowerByte

/-- One step of the recurrence as the specification words it when no
truncation to 32 bits is applied, over unbounded natural numbers:
`acc XOR ((acc << 5) + uppercase code + (acc >> 2))`. -/
def wideStep (acc : Nat) (u : Nat) : Nat :=
  acc ^^^ ((acc <<< 5) + u + (acc >>> 2))

/-- The untruncated accumulator: `wideStep` folded over a list of characters,
starting from 1315423911, with the ASCII uppercase code of each character. -/
def wideAcc (chars : List Byte) : Nat :=
  chars.foldl (fun acc b => wideStep acc (upperByte b).val) 1315423911

/-- The value claimed for `hash`, written from the words of the
specification: the low 16 bits of the accumulator obtained from 1315423911 by
applying `specStep`, for each significant character in order, with the
uppercase code of the character, that is the code in `0..255` of its
ASCII-uppercased byte. -/
def claimedHash (s : List Byte) : Nat :=
  (significant s).foldl (fun acc b => specStep acc ((upperByte b).val : Int)) 1315423911
    % 2 ^ 16

/-! The loop, index by index and list-directed -/

theorem hashLoop_eq_scan (cs : Bool) :
    ∀ (rest pre : List Byte) (fuel : Nat) (st : LoopState),
      st.i = pre.length → 8 - st.i < fuel →
      hashLoop cs (pre ++ rest) fuel st = scan cs (8 - st.i) rest st := by
  intro rest
  induction rest with
  | nil =>
    intro pre fuel st hi hf
    obtain ⟨f, rfl⟩ : ∃ f, fuel = f + 1 := ⟨fuel - 1, by omega⟩
    by_cases h8 : st.i < 8
    · obtain ⟨k, hk⟩ : ∃ k, 8 - st.i = k + 1 := ⟨7 - st.i, by omega⟩
      have hnone : (pre ++ ([] : List Byte))[st.i]? = none := by
        simp [hi]
      rw [hk]
      simp only [hashLoop, scan, h8, if_true, hnone]
    · have hk : 8 - st.i = 0 := by omega
      rw [hk]
      simp only [hashLoop, scan, h8, if_false]
  | cons b r ih =>
    intro pre fuel st hi hf
    obtain ⟨f, rfl⟩ : ∃ f, fuel = f + 1 := ⟨fuel - 1, by omega⟩
    by_cases h8 : st.i < 8
    · obtain ⟨k, hk⟩ : ∃ k, 8 - st.i = k + 1 := ⟨7 - st.i, by omega⟩
      have hsome : (pre ++ b :: r)[st.i]? = some b := by
        rw [hi, List.getElem?_append_right (Nat.le_refl _)]
        simp
      have hstep := ih (pre ++ [b]) f (body cs b st) (by simp [body, hi]) (by simp [body]; omega)
      have hk2 : 8 - (body cs b st).i = k := by simp [body]; omega
      rw [hk2, List.append_assoc, List.singleton_append] at hstep
      rw [hk]
      simp only [hashLoop, scan, h8, if_true, hsome, hstep]
    · have hk : 8 - st.i = 0 := by omega
      rw [hk]
      simp only [hashLoop, scan, h8, if_false]

theorem scan_fields (cs : Bool) :
    ∀ (rest : List Byte) (k : Nat) (st st1 : LoopState),
      scan cs k rest st = Run.ok st1 →
      st1.hash_ = (((rest.take k).takeWhile (fun b => b ≠ 0)).foldl
          (fun h b => update h (upperCode cs b)) st.hash_)
        ∧ st1.updates = st.updates + ((rest.take k).takeWhile (fun b => b ≠ 0)).length
        ∧ st1.i = st.i + ((rest.take k).takeWhile (fun b => b ≠ 0)).length := by
  intro rest
  induction rest with
  | nil =>
    intro k st st1 h
    cases k with
    | zero =>
      simp only [scan, Run.ok.injEq] at h
      subst h
      simp
    | succ k => simp [scan] at h
  | cons b r ih =>
    intro k st st1 h
    cases k with
    | zero =>
      simp only [scan, Run.ok.injEq] at h
      subst h
      simp
    | succ k =>
      by_cases hb : b = 0
      · simp only [scan, hb, ne_eq, not_true_eq_false, if_false, Run.ok.injEq] at h
        subst h
        simp [hb]
      · simp only [scan, ne_eq, hb, not_false_eq_true, if_true] at h
        obtain ⟨h1, h2, h3⟩ := ih k _ _ h
        have htw : ((b :: r).take (k + 1)).takeWhile (fun b => b ≠ 0)
            = b :: (r.take k).takeWhile (fun b => b ≠ 0) := by
          rw [List.take_succ_cons, List.takeWhile_cons_of_pos (by simpa using hb)]
        rw [htw, List.foldl_cons, List.length_cons]
        simp only [body] at h1 h2 h3
        refine ⟨?_, ?_, ?_⟩
        · rw [h1]; rfl
        · rw [h2]; omega
        · rw [h3]; omega

theorem scan_total (cs : Bool) :
    ∀ (rest : List Byte) (k : Nat) (st : LoopState),
      (0 : Byte) ∈ rest ∨ k ≤ rest.length → ∃ st1, scan cs k rest st = Run.ok st1 := by
  intro rest
  induction rest with
  | nil =>
    intro k st h
    cases k with
    | zero => exact ⟨st, rfl⟩
    | succ k => simp at h
  | cons b r ih =>
    intro k st h
    cases k with
    | zero => exact ⟨st, rfl⟩
    | succ k =>
      by_cases hb : b = 0
      · exact ⟨{ st with reads := st.reads ++ [st.i] },
          by simp only [scan, hb, ne_eq, not_true_eq_false, if_false]⟩
      · have hr : (0 : Byte) ∈ r ∨ k ≤ r.length := by
          rcases h with h | h
          · left
            rcases List.mem_cons.1 h with h0 | h0
            · exact absurd h0.symm hb
            · exact h0
          · right
            simpa using h
        obtain ⟨st1, h1⟩ := ih k (body cs b st) hr
        exact ⟨st1, by simp only [scan, ne_eq, hb, not_false_eq_true, if_true, h1]⟩

theorem scan_reads (cs : Bool) :
    ∀ (rest : List Byte) (k : Nat) (st st1 : LoopState),
      scan cs k rest st = Run.ok st1 →
      ∀ idx ∈ st1.reads, idx ∈ st.reads ∨
        (st.i ≤ idx ∧ idx < st.i + k ∧ idx < st.i + rest.length
          ∧ ∀ j, rest[j]? = some 0 → idx ≤ st.i + j) := by
  intro rest
  induction rest with
  | nil =>
    intro k st st1 h
    cases k with
    | zero =>
      simp only [scan, Run.ok.injEq] at h
      subst h
      intro idx hidx
      exact Or.inl hidx
    | succ k => simp [scan] at h
  | cons b r ih =>
    intro k st st1 h
    cases k with
    | zero =>
      simp only [scan, Run.ok.injEq] at h
      subst h
      intro idx hidx
      exact Or.inl hidx
    | succ k =>
      by_cases hb : b = 0
      · simp only [scan, hb, ne_eq, not_true_eq_false, if_false, Run.ok.injEq] at h
        subst h
        intro idx hidx
        simp only [List.mem_append, List.mem_singleton] at hidx
        rcases hidx with hidx | hidx
        · exact Or.inl hidx
        · right
          subst hidx
          refine ⟨Nat.le_refl _, by omega, by simp, ?_⟩
          intro j _
          omega
      · simp only [scan, ne_eq, hb, not_false_eq_true, if_true] at h
        intro idx hidx
        rcases ih k _ _ h idx hidx with hold | ⟨h1, h2, h3, h4⟩
        · simp only [body, List.mem_append, List.mem_cons, List.mem_singleton,
            List.not_mem_nil, or_false, or_self] at hold
          rcases hold with hold | hold
          · exact Or.inl hold
          · right
            subst hold
            refine ⟨Nat.le_refl _, by omega, by simp, ?_⟩
            intro j _
            omega
        · right
          simp only [body] at h1 h2 h3 h4
          refine ⟨by omega, by omega, by simp only [List.length_cons]; omega, ?_⟩
          intro j hj
          cases j with
          | zero =>
            simp only [List.getElem?_cons_zero, Option.some.injEq] at hj
            exact absurd hj hb
          | succ j =>
            simp only [List.getElem?_cons_succ] at hj
            have := h4 j hj
            omega

theorem update_eq_specStep (acc : Nat) (t : Int) : update acc t = specStep acc t := by
  unfold update specStep toUInt32
  rw [Nat.shiftLeft_eq, Nat.shiftRight_eq_div_pow]
  show Nat.xor acc _ = Nat.xor acc _
  congr 1
  norm_num
  omega

/-! The loop on a whole buffer -/

theorem hashLoop_buf (cs : Bool) (buf : List Byte) (fuel : Nat) (hf : 9 ≤ fuel)
    (hbuf : (0 : Byte) ∈ buf ∨ 8 ≤ buf.length) :
    ∃ st, hashLoop cs buf fuel initState = Run.ok st
      ∧ st.hash_ = accOf cs (significant buf)
      ∧ st.updates = (significant buf).length
      ∧ st.i = (significant buf).length
      ∧ ∀ idx ∈ st.reads, idx < 8 ∧ idx < buf.length
          ∧ ∀ j, buf[j]? = some 0 → idx ≤ j := by
  have hscan := hashLoop_eq_scan cs buf [] fuel initState rfl (by simp [initState]; omega)
  simp only [List.nil_append, initState, Nat.sub_zero] at hscan
  obtain ⟨st, hst⟩ := scan_total cs buf 8 ⟨0, 1315423911, [], 0⟩ hbuf
  refine ⟨st, ?_, ?_⟩
  · simp only [initState]
    rw [hscan, hst]
  · obtain ⟨h1, h2, h3⟩ := scan_fields cs buf 8 _ st hst
    refine ⟨h1, by simpa [significant] using h2, by simpa [significant] using h3, ?_⟩
    intro idx hidx
    rcases scan_reads cs buf 8 _ st hst idx hidx with h | ⟨_, h5, h6, h7⟩
    · simp at h
    · refine ⟨by simpa using h5, by simpa using h6, ?_⟩
      intro j hj
      simpa using h7 j hj

theorem takeWhile_take_append_zero (s : List Byte) :
    ∀ k, ((s ++ [0]).take k).takeWhile (fun b => b ≠ 0)
      = (s.take k).takeWhile (fun b => b ≠ 0) := by
  induction s with
  | nil =>
    intro k
    cases k <;> simp
  | cons b r ih =>
    intro k
    cases k with
    | zero => simp
    | succ k =>
      simp only [List.cons_append, List.take_succ_cons, List.takeWhile_cons, ih k]

theorem significant_append_zero (s : List Byte) : significant (s ++ [0]) = significant s :=
  takeWhile_take_append_zero s 8

theorem result_eq_mod (h : Nat) : result h = h % 65536 := by
  unfold result
  have h1 : h &&& 0xffff = h % 2 ^ 16 := Nat.and_pow_two_sub_one_eq_mod h 16
  rw [h1]
  norm_num

theorem hashLoop_string (cs : Bool) (s : List Byte) (fuel : Nat) (hf : 9 ≤ fuel) :
    ∃ st, hashLoop cs (s ++ [0]) fuel initState = Run.ok st
      ∧ st.hash_ = accOf cs (significant s)
      ∧ st.updates = (significant s).length := by
  obtain ⟨st, h1, h2, h3, _⟩ := hashLoop_buf cs (s ++ [0]) fuel hf (Or.inl (by simp))
  rw [significant_append_zero] at h2 h3
  exact ⟨st, h1, h2, h3⟩

theorem hashBuf_eq (cs : Bool) (buf : List Byte)
    (hbuf : (0 : Byte) ∈ buf ∨ 8 ≤ buf.length) :
    hashBuf cs buf = Run.ok (accOf cs (significant buf) % 65536) := by
  obtain ⟨st, h1, h2, _⟩ := hashLoop_buf cs buf loopFuel (Nat.le_refl _) hbuf
  unfold hashBuf
  rw [h1]
  simp only [h2, result_eq_mod]

theorem hash_eq (cs : Bool) (s : List Byte) :
    hash cs s = Run.ok (accOf cs (significant s) % 65536) := by
  unfold hash
  rw [hashBuf_eq cs (s ++ [0]) (Or.inl (by simp)), significant_append_zero]

theorem accOf_eq_specStep (cs : Bool) (chars : List Byte) :
    accOf cs chars
      = chars.foldl (fun acc b => specStep acc (upperCode cs b)) 1315423911 := by
  unfold accOf
  congr 1
  funext h b
  exact update_eq_specStep h _

theorem upperCode_ascii (cs : Bool) (b : Byte) (h : cs = false ∨ b.val < 128) :
    upperCode cs b = ((upperByte b).val : Int) := by
  have hcv : charValue cs b = (b.val : Int) := by
    unfold charValue
    rcases h with h | h
    · simp [h]
    · rw [if_neg]
      omega
  unfold upperCode toupper upperByte
  rw [hcv]
  by_cases hl : 97 ≤ b.val ∧ b.val ≤ 122
  · have hl2 : (97 : Int) ≤ (b.val : Int) ∧ (b.val : Int) ≤ 122 := by omega
    rw [if_pos hl2, dif_pos hl]
    simp only
    omega
  · have hl2 : ¬ ((97 : Int) ≤ (b.val : Int) ∧ (b.val : Int) ≤ 122) := by omega
    rw [if_neg hl2, dif_neg hl]

/-! Case folding of bytes -/

theorem upperByte_val (b : Byte) :
    (upperByte b).val = if 97 ≤ b.val ∧ b.val ≤ 122 then b.val - 32 else b.val := by
  unfold upperByte
  split_ifs <;> rfl

theorem lowerByte_val (b : Byte) :
    (lowerByte b).val = if 65 ≤ b.val ∧ b.val ≤ 90 then b.val + 32 else b.val := by
  unfold lowerByte
  split_ifs <;> rfl

theorem byte_eq_zero_iff (b : Byte) : b = 0 ↔ b.val = 0 := by
  constructor
  · intro h; rw [h]; rfl
  · intro h; exact Fin.ext h

theorem upperByte_eq_zero (b : Byte) : upperByte b = 0 ↔ b = 0 := by
  rw [byte_eq_zero_iff, byte_eq_zero_iff, upperByte_val]
  split_ifs <;> omega

theorem lowerByte_eq_zero (b : Byte) : lowerByte b = 0 ↔ b = 0 := by
  rw [byte_eq_zero_iff, byte_eq_zero_iff, lowerByte_val]
  split_ifs with h
  · simp only [Nat.add_eq_zero, OfNat.ofNat_ne_zero, and_false, false_iff]
    omega
  · rfl

theorem upperCode_upperByte (cs : Bool) (b : Byte) :
    upperCode cs (upperByte b) = upperCode cs b := by
  unfold upperCode toupper charValue
  rw [upperByte_val]
  have := b.isLt
  split_ifs <;> omega

theorem upperCode_lowerByte (cs : Bool) (b : Byte) :
    upperCode cs (lowerByte b) = upperCode cs b := by
  unfold upperCode toupper charValue
  rw [lowerByte_val]
  have := b.isLt
  split_ifs <;> omega

theorem significant_map (f : Byte → Byte) (hf : ∀ b, f b = 0 ↔ b = 0) (s : List Byte) :
    significant (s.map f) = (significant s).map f := by
  unfold significant
  rw [← List.map_take, List.takeWhile_map]
  have hp : ((fun b : Byte => decide (b ≠ 0)) ∘ f) = (fun b : Byte => decide (b ≠ 0)) := by
    funext b
    simp [hf b]
  rw [hp]

theorem accOf_map (cs : Bool) (f : Byte → Byte)
    (hf : ∀ b, upperCode cs (f b) = upperCode cs b) (chars : List Byte) :
    accOf cs (chars.map f) = accOf cs chars := by
  unfold accOf
  rw [List.foldl_map]
  congr 1
  funext h b
  rw [hf b]

theorem hash_map (cs : Bool) (f : Byte → Byte) (hz : ∀ b, f b = 0 ↔ b = 0)
    (hf : ∀ b, upperCode cs (f b) = upperCode cs b) (s : List Byte) :
    hash cs (s.map f) = hash cs s := by
  rw [hash_eq, hash_eq, significant_map f hz, accOf_map cs f hf]

/-! Truncation and termination at a zero byte -/

theorem significant_append_of_length (s t : List Byte) (h : 8 ≤ s.length) :
    significant (s ++ t) = significant (s.take 8) := by
  unfold significant
  rw [List.take_append_of_le_length h, List.take_take, Nat.min_self]

theorem takeWhile_take_append_zero_cons (s t : List Byte) :
    ∀ k, ((s ++ 0 :: t).take k).takeWhile (fun b => b ≠ 0)
      = (s.take k).takeWhile (fun b => b ≠ 0) := by
  induction s with
  | nil =>
    intro k
    cases k <;> simp
  | cons b r ih =>
    intro k
    cases k with
    | zero => simp
    | succ k =>
      simp only [List.cons_append, List.take_succ_cons, List.takeWhile_cons, ih k]

theorem length_takeWhile_take (p : Byte → Bool) (s : List Byte) :
    ∀ k, ((s.take k).takeWhile p).length = min k (s.takeWhile p).length := by
  induction s with
  | nil =>
    intro k
    simp
  | cons b r ih =>
    intro k
    cases k with
    | zero => simp
    | succ k =>
      by_cases hp : p b = true
      · simp only [List.take_succ_cons, List.takeWhile_cons, hp, if_true, List.length_cons, ih k]
        omega
      · simp [List.take_succ_cons, List.takeWhile_cons, hp]

/-! The claimed recurrence on bytes whose `char` value is their code -/

theorem foldl_specStep_upperByte (cs : Bool) :
    ∀ (l : List Byte) (a : Nat), (cs = false ∨ ∀ b ∈ l, b.val < 128) →
      l.foldl (fun acc b => specStep acc (upperCode cs b)) a
        = l.foldl (fun acc b => specStep acc ((upperByte b).val : Int)) a := by
  intro l
  induction l with
  | nil =>
    intro a _
    rfl
  | cons b r ih =>
    intro a h
    have hb : upperCode cs b = ((upperByte b).val : Int) :=
      upperCode_ascii cs b (h.imp id (fun hl => hl b (List.mem_cons_self b r)))
    rw [List.foldl_cons, List.foldl_cons, hb]
    exact ih _ (h.imp id (fun hl x hx => hl x (List.mem_cons_of_mem b hx)))

theorem hash_eq_claimedHash (cs : Bool) (s : List Byte)
    (h : cs = false ∨ ∀ b ∈ significant s, b.val < 128) :
    hash cs s = Run.ok (claimedHash s) := by
  rw [hash_eq, accOf_eq_specStep, foldl_specStep_upperByte cs _ _ h]
  unfold claimedHash
  norm_num

/-! The claims -/

/-- C1 at the one-byte string `"\xFF"` where plain `char` is signed: `hash`
returns 47, while the recurrence of the claim (start 1315423911, one step with
the uppercase code 255, low 16 bits) gives 303; the two agree where plain
`char` is unsigned. -/
theorem hash_differs_from_claimed_at_byte_255 :
    hash true [255] = Run.ok 47
      ∧ claimedHash [255] = 303
      ∧ hash true [255] ≠ Run.ok (claimedHash [255])
      ∧ hash false [255] = Run.ok (claimedHash [255]) := by
  refine ⟨by decide, by decide, by decide, by decide⟩

/-- C2: case-insensitivity. For every input `s`,
`hash s = hash (uppercase s) = hash (lowercase s)`, where `uppercase` and
`lowercase` change only the ASCII letters of `s`. -/
theorem hash_case_insensitive (charSigned : Bool) (s : List Byte) :
    hash charSigned s = hash charSigned (uppercase s)
      ∧ hash charSigned (uppercase s) = hash charSigned (lowercase s) := by
  have hu : hash charSigned (uppercase s) = hash charSigned s :=
    hash_map charSigned upperByte upperByte_eq_zero (upperCode_upperByte charSigned) s
  have hl : hash charSigned (lowercase s) = hash charSigned s :=
    hash_map charSigned lowerByte lowerByte_eq_zero (upperCode_lowerByte charSigned) s
  exact ⟨hu.symm, hu.trans hl.symm⟩

/-- C3: truncation. For every input `s` with at least 8 characters and no zero
byte among its first 8, and every suffix `t`,
`hash (s ++ t) = hash (first 8 characters of s)`. -/
theorem hash_truncates_after_eight (charSigned : Bool) (s t : List Byte)
    (hlen : 8 ≤ s.length) (_hnz : ∀ b ∈ s.take 8, b ≠ 0) :
    hash charSigned (s ++ t) = hash charSigned (s.take 8) := by
  rw [hash_eq, hash_eq, significant_append_of_length s t hlen]

/-- Instance of C3: "MAP01234" followed by "56". -/
theorem hash_truncates_after_eight_witness :
    8 ≤ ([77, 65, 80, 48, 49, 50, 51, 52] : List Byte).length
      ∧ (∀ b ∈ ([77, 65, 80, 48, 49, 50, 51, 52] : List Byte).take 8, b ≠ 0)
      ∧ hash true ([77, 65, 80, 48, 49, 50, 51, 52] ++ [53, 54])
          = hash true (([77, 65, 80, 48, 49, 50, 51, 52] : List Byte).take 8) :=
  ⟨by simp, by simp,
    hash_truncates_after_eight true [77, 65, 80, 48, 49, 50, 51, 52] [53, 54]
      (by simp) (by simp)⟩

/-- C4: early termination at a zero byte. For every byte string `s` with no
zero byte and fewer than 8 characters, and every byte string `t`,
`hash (s ++ [0] ++ t) = hash s`. -/
theorem hash_stops_at_zero_byte (charSigned : Bool) (s t : List Byte)
    (_hnz : ∀ b ∈ s, b ≠ 0) (_hlen : s.length < 8) :
    hash charSigned (s ++ [0] ++ t) = hash charSigned s := by
  rw [hash_eq, hash_eq]
  congr 3
  unfold significant
  rw [List.append_assoc, List.singleton_append]
  exact takeWhile_take_append_zero_cons s t 8

/-- Instance of C4: "MAP" followed by a zero byte and "XY". -/
theorem hash_stops_at_zero_byte_witness :
    (∀ b ∈ ([77, 65, 80] : List Byte), b ≠ 0)
      ∧ ([77, 65, 80] : List Byte).length < 8
      ∧ hash true ([77, 65, 80] ++ [0] ++ [88, 89]) = hash true [77, 65, 80] :=
  ⟨by simp, by simp,
    hash_stops_at_zero_byte true [77, 65, 80] [88, 89] (by simp) (by simp)⟩

/-- C5: for the empty input, and for every input whose first byte is zero, the
loop body never executes (the loop ends with zero updates) and `hash` returns
`1315423911 AND 0xFFFF`. -/
theorem hash_empty_or_leading_zero (charSigned : Bool) (t : List Byte) :
    (∃ st, hashLoop charSigned ([] ++ [0]) loopFuel initState = Run.ok st ∧ st.updates = 0)
      ∧ hash charSigned [] = Run.ok (1315423911 &&& 0xFFFF)
      ∧ (∃ st, hashLoop charSigned ((0 :: t) ++ [0]) loopFuel initState = Run.ok st
          ∧ st.updates = 0)
      ∧ hash charSigned (0 :: t) = Run.ok (1315423911 &&& 0xFFFF) := by
  have hsig : significant (0 :: t) = [] := by simp [significant]
  refine ⟨⟨⟨0, 1315423911, [0], 0⟩, rfl, rfl⟩, rfl, ?_, ?_⟩
  · obtain ⟨st, h1, _, h3⟩ := hashLoop_string charSigned (0 :: t) loopFuel (Nat.le_refl _)
    exact ⟨st, h1, by rw [h3, hsig]; rfl⟩
  · rw [hash_eq, hsig]
    simp only [accOf, List.foldl_nil]
    decide

/-- C6 as stated fails: on the empty input `hash` does not return 39495
(whatever the signedness of plain `char`), and `1315423911 AND 0xFFFF` is not
39495. -/
theorem hash_empty_ne_39495 :
    hash true [] ≠ Run.ok 39495 ∧ hash false [] ≠ Run.ok 39495
      ∧ (1315423911 &&& 0xFFFF) ≠ 39495 := by
  refine ⟨by decide, by decide, by decide⟩

/-- C6, amended: `hash "" = 50855`, and `1315423911 AND 0xFFFF = 50855`. -/
theorem hash_empty_eq_50855 (charSigned : Bool) :
    hash charSigned [] = Run.ok 50855 ∧ (1315423911 &&& 0xFFFF) = 50855 :=
  ⟨rfl, rfl⟩

/-- C7 at the one-byte string `"\xFF"` where plain `char` is signed: the
character is the `int` value -1, `toupper` returns it unchanged, and the value
added to the accumulator is 4294967295 (the sign-extended -1), not the code
255. The hash is 47; with the code 255 added, as happens where plain `char` is
unsigned, it is 303. -/
theorem hash_byte_255_signed_char :
    charValue true 255 = -1
      ∧ toupper (charValue true 255) = -1
      ∧ toUInt32 (toupper (charValue true 255)) = 4294967295
      ∧ hash true [255] = Run.ok 47
      ∧ toUInt32 (toupper (charValue false 255)) = 255
      ∧ hash false [255] = Run.ok 303 := by
  refine ⟨by decide, by decide, by decide, by decide, by decide, by decide⟩

/-- C8: `hash` is total. For every input (empty, with bytes `128..255`, with
embedded zero bytes) and either signedness of plain `char` it returns a value
`r`, never a fault, and `0 ≤ r ≤ 65535`. -/
theorem hash_total_in_range (charSigned : Bool) (s : List Byte) :
    ∃ r, hash charSigned s = Run.ok r ∧ 0 ≤ r ∧ r ≤ 65535 := by
  refine ⟨_, hash_eq charSigned s, Nat.zero_le _, ?_⟩
  omega

/-- C9: bounded reads. For every buffer that contains a zero byte or has at
least 8 bytes, `hash` runs to completion and every index it reads is inside
the buffer, is below 8, and is not greater than the index of any (so of the
first) zero byte. -/
theorem hash_reads_within_buffer (charSigned : Bool) (buf : List Byte)
    (hbuf : (0 : Byte) ∈ buf ∨ 8 ≤ buf.length) :
    ∃ st, hashLoop charSigned buf loopFuel initState = Run.ok st
      ∧ ∀ idx ∈ st.reads,
          idx < buf.length ∧ idx < 8 ∧ ∀ j, buf[j]? = some 0 → idx ≤ j := by
  obtain ⟨st, h1, _, _, _, h5⟩ := hashLoop_buf charSigned buf loopFuel (Nat.le_refl _) hbuf
  refine ⟨st, h1, ?_⟩
  intro idx hidx
  obtain ⟨ha, hb, hc⟩ := h5 idx hidx
  exact ⟨hb, ha, hc⟩

/-- Instance of C9 at the 8-byte buffer "MAP01234", which has no zero byte
and no terminator after it. -/
theorem hash_reads_within_buffer_witness :
    ((0 : Byte) ∈ ([77, 65, 80, 48, 49, 50, 51, 52] : List Byte)
        ∨ 8 ≤ ([77, 65, 80, 48, 49, 50, 51, 52] : List Byte).length)
      ∧ ∃ st, hashLoop true [77, 65, 80, 48, 49, 50, 51, 52] loopFuel initState = Run.ok st
        ∧ ∀ idx ∈ st.reads,
            idx < ([77, 65, 80, 48, 49, 50, 51, 52] : List Byte).length ∧ idx < 8
              ∧ ∀ j, ([77, 65, 80, 48, 49, 50, 51, 52] : List Byte)[j]? = some 0 → idx ≤ j :=
  ⟨Or.inr (by simp),
    hash_reads_within_buffer true [77, 65, 80, 48, 49, 50, 51, 52] (Or.inr (by simp))⟩

/-- C10: the loop terminates for every input (any step budget of at least 9
guard evaluations suffices) and performs exactly `min 8 n` accumulator
updates, `n` being the number of characters before the first zero byte (the
input length if there is none); so it never runs more than 8 iterations. -/
theorem loop_terminates_with_min_updates (charSigned : Bool) (s : List Byte) (fuel : Nat)
    (hf : 9 ≤ fuel) :
    ∃ st, hashLoop charSigned (s ++ [0]) fuel initState = Run.ok st
      ∧ st.updates = min 8 (s.takeWhile (fun b => b ≠ 0)).length
      ∧ st.updates ≤ 8 := by
  obtain ⟨st, h1, _, h3⟩ := hashLoop_string charSigned s fuel hf
  have hlen : (significant s).length = min 8 (s.takeWhile (fun b => b ≠ 0)).length :=
    length_takeWhile_take _ s 8
  refine ⟨st, h1, by rw [h3, hlen], ?_⟩
  rw [h3, hlen]
  exact Nat.min_le_left _ _

/-- Instance of C10 at the ten-character string "MAP0123456" with budget 9. -/
theorem loop_terminates_with_min_updates_witness :
    9 ≤ 9 ∧ ∃ st, hashLoop true ([77, 65, 80, 48, 49, 50, 51, 52, 53, 54] ++ [0]) 9 initState
        = Run.ok st
      ∧ st.updates
          = min 8 (([77, 65, 80, 48, 49, 50, 51, 52, 53, 54] : List Byte).takeWhile
              (fun b => b ≠ 0)).length
      ∧ st.updates ≤ 8 :=
  ⟨Nat.le_refl 9,
    loop_terminates_with_min_updates true [77, 65, 80, 48, 49, 50, 51, 52, 53, 54] 9
      (Nat.le_refl 9)⟩

/-! Low bits of the accumulator -/

theorem xor_mod_two_pow (a b n : Nat) :
    (a ^^^ b) % 2 ^ n = (a % 2 ^ n) ^^^ (b % 2 ^ n) := by
  apply Nat.eq_of_testBit_eq
  intro i
  simp only [Nat.testBit_mod_two_pow, Nat.testBit_xor]
  by_cases h : i < n <;> simp [h]

theorem toUInt32_natCast (u : Nat) : toUInt32 (u : Int) = u % 4294967296 := by
  unfold toUInt32
  omega

theorem update_mod_two_pow (m : Nat) (hm : m ≤ 32) (a u : Nat) :
    update a (u : Int) % 2 ^ m = (a % 2 ^ m) ^^^ ((a * 32 + u + a / 4) % 2 ^ m) := by
  unfold update
  rw [xor_mod_two_pow, toUInt32_natCast, Nat.shiftLeft_eq, Nat.shiftRight_eq_div_pow]
  have hdvd : 2 ^ m ∣ 4294967296 := by
    have h := pow_dvd_pow 2 hm
    norm_num at h
    exact h
  have hX : ((a * 2 ^ 5 % 4294967296 + u % 4294967296) % 4294967296 + a / 2 ^ 2) % 4294967296
      = (a * 32 + u + a / 4) % 4294967296 := by
    norm_num
  rw [hX, Nat.mod_mod_of_dvd _ hdvd]

theorem wideStep_mod_two_pow (m : Nat) (A u : Nat) :
    wideStep A u % 2 ^ m = (A % 2 ^ m) ^^^ ((A * 32 + u + A / 4) % 2 ^ m) := by
  unfold wideStep
  rw [xor_mod_two_pow, Nat.shiftLeft_eq, Nat.shiftRight_eq_div_pow]

theorem step_low_bits (m : Nat) (hm : m ≤ 32) (a A u : Nat)
    (h : A % 2 ^ (m + 2) = a % 2 ^ (m + 2)) :
    wideStep A u % 2 ^ m = update a (u : Int) % 2 ^ m := by
  have hpow : 2 ^ (m + 2) = 2 ^ m * 4 := by ring
  rw [hpow] at h
  have h1 : Nat.ModEq (2 ^ m) A a := Nat.ModEq.of_mul_right 4 h
  have h2 : Nat.ModEq (2 ^ m) (A / 4) (a / 4) := by
    unfold Nat.ModEq
    rw [← Nat.mod_mul_left_div_self A 4 (2 ^ m), ← Nat.mod_mul_left_div_self a 4 (2 ^ m), h]
  have h3 : Nat.ModEq (2 ^ m) (A * 32 + u + A / 4) (a * 32 + u + a / 4) :=
    ((h1.mul_right 32).add_right u).add h2
  rw [wideStep_mod_two_pow, update_mod_two_pow m hm]
  unfold Nat.ModEq at h1 h3
  rw [h1, h3]

theorem fold_low_bits (cs : Bool) :
    ∀ (l : List Byte) (n a A : Nat), (∀ b ∈ l, b.val < 128) → n + 2 * l.length ≤ 32 →
      A % 2 ^ (n + 2 * l.length) = a % 2 ^ (n + 2 * l.length) →
      (l.foldl (fun acc b => wideStep acc (upperByte b).val) A) % 2 ^ n
        = (l.foldl (fun h b => update h (upperCode cs b)) a) % 2 ^ n := by
  intro l
  induction l with
  | nil =>
    intro n a A _ _ h
    simpa using h
  | cons b r ih =>
    intro n a A hl hn h
    have hlen : n + 2 * (b :: r).length = (n + 2 * r.length) + 2 := by
      simp only [List.length_cons]
      omega
    rw [hlen] at h hn
    have hb : upperCode cs b = (((upperByte b).val : Nat) : Int) :=
      upperCode_ascii cs b (Or.inr (hl b (List.mem_cons_self b r)))
    rw [List.foldl_cons, List.foldl_cons, hb]
    apply ih n _ _ (fun x hx => hl x (List.mem_cons_of_mem b hx)) (by omega)
    exact step_low_bits (n + 2 * r.length) (by omega) a A _ h

theorem significant_length_le (s : List Byte) : (significant s).length ≤ 8 := by
  unfold significant
  rw [length_takeWhile_take]
  exact Nat.min_le_left _ _

theorem upperCode_range (cs : Bool) (b : Byte) :
    -128 ≤ upperCode cs b ∧ upperCode cs b ≤ 255 := by
  unfold upperCode toupper charValue
  have := b.isLt
  split_ifs <;> omega

theorem upperCode_eq_iff (cs : Bool) (c d : Byte) :
    upperCode cs c = upperCode cs d ↔ upperByte c = upperByte d := by
  rw [Fin.ext_iff, upperByte_val, upperByte_val]
  unfold upperCode toupper charValue
  have := c.isLt
  have := d.isLt
  cases cs
  · simp only [Bool.false_eq_true, false_and, if_false]
    constructor <;> intro h <;> split_ifs at h ⊢ <;> omega
  · simp only [true_and]
    constructor <;> intro h <;> split_ifs at h ⊢ <;> omega

theorem hash_singleton (cs : Bool) (c : Byte) (hc : c ≠ 0) :
    hash cs [c] = Run.ok (update 1315423911 (upperCode cs c) % 65536) := by
  have hsig : significant [c] = [c] := by simp [significant, hc]
  rw [hash_eq, hsig]
  unfold accOf
  rw [List.foldl_cons, List.foldl_nil]

theorem update_init_low16_inj (u v : Int) (hu : -128 ≤ u ∧ u ≤ 255)
    (hv : -128 ≤ v ∧ v ≤ 255) :
    update 1315423911 u % 65536 = update 1315423911 v % 65536 ↔ u = v := by
  have e : (65536 : Nat) = 2 ^ 16 := by norm_num
  unfold update
  rw [e, xor_mod_two_pow, xor_mod_two_pow, Nat.xor_right_inj]
  unfold toUInt32
  rw [Nat.shiftLeft_eq, Nat.shiftRight_eq_div_pow]
  norm_num
  omega

/-- C11: `hash` is not collision-free. The inputs "00" and "1M", each of at
most 8 non-zero characters and with different uppercased forms, have the same
hash value (17385), whatever the signedness of plain `char`. -/
theorem hash_has_collision (charSigned : Bool) :
    ∃ s t : List Byte, s.length ≤ 8 ∧ t.length ≤ 8
      ∧ (∀ b ∈ s, b ≠ 0) ∧ (∀ b ∈ t, b ≠ 0)
      ∧ uppercase s ≠ uppercase t
      ∧ hash charSigned s = hash charSigned t
      ∧ hash charSigned s = Run.ok 17385 := by
  refine ⟨[48, 48], [49, 77], by simp, by simp, by simp, by simp, by decide, ?_, ?_⟩
  · cases charSigned <;> decide
  · cases charSigned <;> decide

/-- C12: 32-bit truncation of the accumulator does not affect the result. For
every input whose significant characters have codes in `0..127`, `hash s` is
the low 16 bits of the accumulator computed by the same recurrence over
unbounded natural numbers, with no truncation to 32 bits at any step. -/
theorem hash_eq_low16_of_untruncated (charSigned : Bool) (s : List Byte)
    (hascii : ∀ b ∈ significant s, b.val < 128) :
    hash charSigned s = Run.ok (wideAcc (significant s) % 2 ^ 16) := by
  rw [hash_eq]
  have hlen := significant_length_le s
  have h := fold_low_bits charSigned (significant s) 16 1315423911 1315423911 hascii
    (by omega) rfl
  unfold accOf wideAcc
  rw [h]
  norm_num

/-- Instance of C12 at the eight-character string "map01234": the untruncated
accumulator exceeds 32 bits, and its low 16 bits are the hash 27837. -/
theorem hash_eq_low16_of_untruncated_witness :
    (∀ b ∈ significant [109, 97, 112, 48, 49, 50, 51, 52], b.val < 128)
      ∧ hash true [109, 97, 112, 48, 49, 50, 51, 52]
          = Run.ok (wideAcc (significant [109, 97, 112, 48, 49, 50, 51, 52]) % 2 ^ 16)
      ∧ 2 ^ 32 ≤ wideAcc (significant [109, 97, 112, 48, 49, 50, 51, 52])
      ∧ wideAcc (significant [109, 97, 112, 48, 49, 50, 51, 52]) % 2 ^ 16 = 27837 :=
  ⟨by simp [significant]; decide,
    hash_eq_low16_of_untruncated true [109, 97, 112, 48, 49, 50, 51, 52]
      (by simp [significant]; decide),
    by decide, by decide⟩

/-- C13: one-character inputs collide only by case. For every two non-zero
characters `c` and `d`, `hash [c] = hash [d]` if and only if the uppercase forms
of `c` and `d` are equal. -/
theorem hash_single_char_collides_iff_same_upper (charSigned : Bool) (c d : Byte)
    (hc : c ≠ 0) (hd : d ≠ 0) :
    hash charSigned [c] = hash charSigned [d] ↔ upperByte c = upperByte d := by
  rw [hash_singleton charSigned c hc, hash_singleton charSigned d hd, Run.ok.injEq,
    update_init_low16_inj _ _ (upperCode_range charSigned c) (upperCode_range charSigned d)]
  exact upperCode_eq_iff charSigned c d

/-- Instance of C13 at the characters `a` and `A`, and at `a` and `b`. -/
theorem hash_single_char_collides_iff_same_upper_witness :
    (97 : Byte) ≠ 0 ∧ (65 : Byte) ≠ 0 ∧ (98 : Byte) ≠ 0
      ∧ (hash true [97] = hash true [65] ↔ upperByte 97 = upperByte 65)
      ∧ (hash true [97] = hash true [98] ↔ upperByte 97 = upperByte 98) :=
  ⟨by decide, by decide, by decide,
    hash_single_char_collides_iff_same_upper true 97 65 (by decide) (by decide),
    hash_single_char_collides_iff_same_upper true 97 98 (by decide) (by decide)⟩

/-- C14: golden vector. `hash "A" = 109` and `hash "a" = 109`; in both runs
the loop performs one update, after which the accumulator is `0xAEF5006D`,
whose low 16 bits are `0x006D`. -/
theorem hash_golden_vector_A (charSigned : Bool) :
    hash charSigned [65] = Run.ok 109
      ∧ hash charSigned [97] = Run.ok 109
      ∧ hashLoop charSigned ([65] ++ [0]) loopFuel initState
          = Run.ok { i := 1, hash_ := 0xAEF5006D, reads := [0, 0, 1], updates := 1 }
      ∧ hashLoop charSigned ([97] ++ [0]) loopFuel initState
          = Run.ok { i := 1, hash_ := 0xAEF5006D, reads := [0, 0, 1], updates := 1 }
      ∧ 0xAEF5006D % 65536 = 0x006D := by
  cases charSigned <;> decide

end Doom64Hash
